import Mathlib

/-!
Shallow embedding of the css-transition-group reconciliation engine.
The definitions below translate the final variant of the component
(the `CSSTransitionGroup` function component) together with the helper
functions it uses: `elementDiff`, `mergeInRemovedChildren`,
`removeLeavingChild`, the leave/enter class-name construction, the
two-pass `childrenToRender` fill, and the timeout bookkeeping
(`liveTimeouts` map plus the host's pending-timeout queue).
Machine integers do not overflow here (indices and ids are plain
array indices and counters), so `Nat` is used throughout.
-/

/-- A keyed child element. The engine only ever inspects `key`; the payload
is carried through untouched. -/
structure Elem where
  key : String
  payload : String
deriving DecidableEq, Repr

/-- Translation of the `IElementWithIndex` interface: an element paired with
an index (the index in the live collection for removed children, or the
merged output index for entries of `leavingChildren`). -/
structure ElemWithIndex where
  element : Elem
  index : Nat
deriving DecidableEq, Repr

/-- Translation of the module-level `EMPTY_ARRAY` constant returned for
referential equality when a diff is empty. -/
def EMPTY_ARRAY : List ElemWithIndex := []

/-- Translation of `elementDiff`: compare two lists of elements by key,
returning the items of `comparedItems` whose key is absent from
`compareWith`, each paired with its index in `comparedItems`; the shared
`EMPTY_ARRAY` is returned when there is no difference. -/
def elementDiff (comparedItems compareWith : List Elem) : List ElemWithIndex :=
  let compareWithKeys := compareWith.map (·.key)
  let diff := (comparedItems.enum.map (fun p => ElemWithIndex.mk p.2 p.1)).filter
    (fun p => !(compareWithKeys.contains p.element.key))
  if diff.length ≠ 0 then diff else EMPTY_ARRAY

/-- The `indexPush` walk inside `mergeInRemovedChildren`: walk the existing
`leavingChildren` and bump the offset for every entry whose merged index is
at most the raw index plus the offset so far. -/
def leavingIndexPush (leavingChildren : List ElemWithIndex) (index : Nat) : Nat :=
  leavingChildren.foldl
    (fun indexPush lc => if lc.index ≤ index + indexPush then indexPush + 1 else indexPush) 0

/-- Stable insertion into a list sorted ascending by index: the new entry
goes after existing entries with a strictly smaller index and before entries
with an equal or larger one, exactly where a stable ascending sort places
it. -/
def insertSortedBy (a : ElemWithIndex) : List ElemWithIndex → List ElemWithIndex
  | [] => [a]
  | b :: rest =>
    if b.index < a.index then b :: insertSortedBy a rest else a :: b :: rest

/-- Stable ascending sort by merged index, modelling the JavaScript
`Array.prototype.sort` call with comparator `indexA - indexB` (stable
ascending per the language specification). -/
def sortByIndex : List ElemWithIndex → List ElemWithIndex
  | [] => []
  | a :: rest => insertSortedBy a (sortByIndex rest)

/-- Translation of `mergeInRemovedChildren`: give each newly removed child a
merged index (raw index plus `indexPush`), concatenate with the existing
`leavingChildren` and sort the result ascending by index. -/
def mergeInRemovedChildren (removedChildren leavingChildren : List ElemWithIndex) :
    List ElemWithIndex :=
  sortByIndex (leavingChildren ++ removedChildren.map
    (fun r => ElemWithIndex.mk r.element (r.index + leavingIndexPush leavingChildren r.index)))

/-- Recursion translating the body of the `reduce` inside `removeLeavingChild`:
`reduceIndex` starts at 0 and becomes 1 once the entry matching `key` has been
dropped; every later entry has its index lowered by `reduceIndex`. -/
def removeLeavingChildAux (key : String) (reduceIndex : Nat) :
    List ElemWithIndex → List ElemWithIndex
  | [] => []
  | c :: rest =>
    if c.element.key = key then removeLeavingChildAux key 1 rest
    else ElemWithIndex.mk c.element (c.index - reduceIndex) ::
      removeLeavingChildAux key reduceIndex rest

/-- Translation of `removeLeavingChild` (the state update run when a leave
timer fires): drop the entry for `key` and shift down the index of every
entry after it. -/
def removeLeavingChild (key : String) (leavingChildren : List ElemWithIndex) :
    List ElemWithIndex :=
  removeLeavingChildAux key 0 leavingChildren

/-- Translation of the `setLeavingChildren` filter run for newly added
children: a leaving child whose key reappears among the added keys is dropped
from the registry, all other entries are kept verbatim. -/
def reinstateLeavingChildren (addedKeys : List String)
    (leavingChildren : List ElemWithIndex) : List ElemWithIndex :=
  leavingChildren.filter (fun child => !(addedKeys.contains child.element.key))

/-- The class string built for a leaving child inside `childrenToRender`:
the template literal produces the base leave class, a space, and then either
the empty string (still inactive) or the active leave class. -/
def leaveClassName (transitionName : String) (inactiveChildren : List String)
    (e : Elem) : String :=
  transitionName ++ "-leave " ++
    (if inactiveChildren.contains e.key then "" else transitionName ++ "-leave-active")

/-- The class string built for a still-present child inside
`childrenToRender`: empty unless the child is entering, in which case it is
the enter class alone while inactive, or the enter class, a space, and the
active enter class once activated. -/
def enterClassName (transitionName : String) (enteringChildren inactiveChildren : List String)
    (e : Elem) : String :=
  if enteringChildren.contains e.key then
    if inactiveChildren.contains e.key then transitionName ++ "-enter"
    else transitionName ++ "-enter " ++ transitionName ++ "-enter-active"
  else ""

/-- A rendered output slot entry: the element together with the phase class
string the engine attaches to it. -/
abbrev RenderedChild := Elem × String

/-- First pass of `childrenToRender`: allocate an array of length
`currentChildren.length + leavingChildren.length` and place every leaving
child at its merged index. Indices are in bounds in every state the
component constructs; `List.set` drops an out-of-range write. -/
def placeLeavingChildren (total : Nat) (transitionName : String)
    (inactiveChildren : List String) (leavingChildren : List ElemWithIndex) :
    List (Option RenderedChild) :=
  leavingChildren.foldl
    (fun slots lc =>
      slots.set lc.index (some (lc.element, leaveClassName transitionName inactiveChildren lc.element)))
    (List.replicate total none)

/-- Second pass of `childrenToRender`: walk the slot array and fill every
still-empty slot with the next current child, tagged with its enter class.
When the current children run out the remaining empty slots stay empty
(the JavaScript loop would fault there; no reachable state does). -/
def fillChildren (transitionName : String) (enteringChildren inactiveChildren : List String) :
    List (Option RenderedChild) → List Elem → List (Option RenderedChild)
  | [], _ => []
  | none :: slots, [] =>
      none :: fillChildren transitionName enteringChildren inactiveChildren slots []
  | none :: slots, c :: cs =>
      some (c, enterClassName transitionName enteringChildren inactiveChildren c) ::
        fillChildren transitionName enteringChildren inactiveChildren slots cs
  | some r :: slots, cs =>
      some r :: fillChildren transitionName enteringChildren inactiveChildren slots cs

/-- Translation of the `childrenToRender` memo: two-pass merge of the current
children and the leaving children into one output array. -/
def childrenToRender (transitionName : String) (currentChildren : List Elem)
    (leavingChildren : List ElemWithIndex) (enteringChildren inactiveChildren : List String) :
    List (Option RenderedChild) :=
  fillChildren transitionName enteringChildren inactiveChildren
    (placeLeavingChildren (currentChildren.length + leavingChildren.length) transitionName
      inactiveChildren leavingChildren)
    currentChildren

/-- Selector used to state what the second pass fills: the entries of `out`
at the positions where `slots` was still empty, in order. -/
def gapEntries : List (Option RenderedChild) → List (Option RenderedChild) →
    List (Option RenderedChild)
  | none :: slots, x :: out => x :: gapEntries slots out
  | some _ :: slots, _ :: out => gapEntries slots out
  | _, _ => []

/-- The two kinds of one-shot per-key timeouts scheduled by the component. -/
inductive TimeoutKind where
  | settle
  | remove
deriving DecidableEq, Repr

/-- A pending host timeout: its `window.setTimeout` id, the key it was
scheduled for, and which callback it runs. -/
structure PendingTimeout where
  id : Nat
  key : String
  kind : TimeoutKind
deriving DecidableEq, Repr

/-- State of the timeout bookkeeping: `liveTimeouts` is the component's
`Map` from key to latest timeout id, `queue` is the host's set of pending
timeouts, and `counter` is the next timeout id the host will hand out
(`window.setTimeout` ids are positive, so ids start at 1). -/
structure SchedulerState where
  liveTimeouts : List (String × Nat)
  queue : List PendingTimeout
  counter : Nat
deriving DecidableEq, Repr

/-- Lookup in the insertion-ordered map backing `liveTimeouts`. -/
def mapGet : List (String × Nat) → String → Option Nat
  | [], _ => none
  | p :: rest, k => if p.1 = k then some p.2 else mapGet rest k

/-- Update in the insertion-ordered map backing `liveTimeouts`: replace the
value in place when the key exists, append otherwise, as `Map.set` does. -/
def mapSet : List (String × Nat) → String → Nat → List (String × Nat)
  | [], k, v => [(k, v)]
  | p :: rest, k, v => if p.1 = k then (k, v) :: rest else p :: mapSet rest k v

/-- Translation of `clearLiveTimeout`: look up the stored timeout id for
`key` and, when it is truthy, clear that pending timeout. The map entry
itself is not deleted. -/
def clearLiveTimeout (key : String) (s : SchedulerState) : SchedulerState :=
  match mapGet s.liveTimeouts key with
  | none => s
  | some t => if t = 0 then s else { s with queue := s.queue.filter (fun q => !(q.id == t)) }

/-- Common body of `scheduleSettleEnteringChild` and
`scheduleRemoveLeavingChild`: clear any live timeout for the key, register a
fresh host timeout, and store its id in `liveTimeouts`. -/
def scheduleTimeout (key : String) (kind : TimeoutKind) (s : SchedulerState) : SchedulerState :=
  let s' := clearLiveTimeout key s
  { liveTimeouts := mapSet s'.liveTimeouts key s'.counter,
    queue := s'.queue ++ [PendingTimeout.mk s'.counter key kind],
    counter := s'.counter + 1 }

/-- Translation of `scheduleSettleEnteringChild` restricted to its timeout
bookkeeping. -/
def scheduleSettleEnteringChild (key : String) (s : SchedulerState) : SchedulerState :=
  scheduleTimeout key TimeoutKind.settle s

/-- Translation of `scheduleRemoveLeavingChild` restricted to its timeout
bookkeeping. -/
def scheduleRemoveLeavingChild (key : String) (s : SchedulerState) : SchedulerState :=
  scheduleTimeout key TimeoutKind.remove s

/-- Host-side effect of a timeout firing (or being cleared by the host): the
pending entry with that id leaves the queue. -/
def hostFireTimeout (id : Nat) (s : SchedulerState) : SchedulerState :=
  { s with queue := s.queue.filter (fun q => !(q.id == id)) }

/-- Events that drive the timeout bookkeeping: the component scheduling a
settle or remove timeout for a key, and the host firing a pending timeout. -/
inductive SchedulerEvent where
  | schedule (key : String) (kind : TimeoutKind)
  | fire (id : Nat)

/-- One step of the timeout bookkeeping. -/
def schedStep (s : SchedulerState) : SchedulerEvent → SchedulerState
  | SchedulerEvent.schedule k kind => scheduleTimeout k kind s
  | SchedulerEvent.fire id => hostFireTimeout id s

/-- The scheduler state at mount: empty map, no pending timeouts, first id 1. -/
def initScheduler : SchedulerState := SchedulerState.mk [] [] 1

/-- Run a sequence of scheduler events from a given state. -/
def runSchedulerFrom (s : SchedulerState) (evs : List SchedulerEvent) : SchedulerState :=
  evs.foldl schedStep s

/-- Run a sequence of scheduler events from the mount state: the reachable
scheduler states are exactly the values of this function. -/
def runScheduler (evs : List SchedulerEvent) : SchedulerState :=
  runSchedulerFrom initScheduler evs

/-- Invariant of the timeout bookkeeping: every pending timeout is tracked in
`liveTimeouts` under its key, each key has at most one pending timeout, map
keys and stored ids are duplicate-free, and every stored id is positive and
below the next id the host will hand out. -/
def SchedulerInv (s : SchedulerState) : Prop :=
  (∀ q ∈ s.queue, mapGet s.liveTimeouts q.key = some q.id) ∧
  (∀ k : String, (s.queue.filter (fun q => q.key == k)).length ≤ 1) ∧
  (s.liveTimeouts.map Prod.fst).Nodup ∧
  (s.liveTimeouts.map Prod.snd).Nodup ∧
  (∀ p ∈ s.liveTimeouts, 1 ≤ p.2 ∧ p.2 < s.counter) ∧
  1 ≤ s.counter

/-- Insertion-ordered set add, as `Set.prototype.add` behaves on the key sets
`enteringChildren` and `inactiveChildren`. -/
def setAdd (s : List String) (key : String) : List String :=
  if s.contains key then s else s ++ [key]

/-- Full engine state of the component: previous children, leaving registry,
the two phase key sets, and the timeout bookkeeping. -/
structure EngineState where
  oldChildren : List Elem
  leavingChildren : List ElemWithIndex
  enteringChildren : List String
  inactiveChildren : List String
  sched : SchedulerState
deriving DecidableEq, Repr

/-- Net state change of one reconciliation pass against a new children list:
the layout effect first merges the newly removed children into the leaving
registry, schedules their remove timeouts and marks them inactive; the
passive effect then records the newly added children as entering, schedules
their settle timeouts (cancelling any pending timeout for those keys),
drops reappearing keys from the leaving registry and marks the added keys
inactive; finally `oldChildren` becomes the new children list. -/
def applyUpdate (s : EngineState) (newChildren : List Elem) : EngineState :=
  let added := elementDiff newChildren s.oldChildren
  let removed := elementDiff s.oldChildren newChildren
  let s1 :=
    if removed.length ≠ 0 then
      { s with
        sched := removed.foldl (fun st r => scheduleRemoveLeavingChild r.element.key st) s.sched,
        leavingChildren := mergeInRemovedChildren removed s.leavingChildren,
        inactiveChildren := removed.foldl (fun ks r => setAdd ks r.element.key) s.inactiveChildren }
    else s
  let s2 :=
    if added.length ≠ 0 then
      let addedKeys := added.map (fun r => r.element.key)
      { s1 with
        enteringChildren := added.foldl (fun ks r => setAdd ks r.element.key) s1.enteringChildren,
        sched := added.foldl (fun st r => scheduleSettleEnteringChild r.element.key st) s1.sched,
        leavingChildren := reinstateLeavingChildren addedKeys s1.leavingChildren,
        inactiveChildren := added.foldl (fun ks r => setAdd ks r.element.key) s1.inactiveChildren }
    else s1
  { s2 with oldChildren := newChildren }

/-- A pending timeout firing at engine level: the host removes it from its
queue and the component callback runs (`settleEnteringChild` or
`removeLeavingChild`). A fire for an id that is no longer pending is a
no-op. -/
def fireEngineTimeout (id : Nat) (s : EngineState) : EngineState :=
  match s.sched.queue.find? (fun q => q.id == id) with
  | none => s
  | some q =>
    let s' := { s with sched := hostFireTimeout id s.sched }
    match q.kind with
    | TimeoutKind.settle =>
        { s' with enteringChildren := s'.enteringChildren.filter (fun k => !(k == q.key)) }
    | TimeoutKind.remove =>
        { s' with leavingChildren := removeLeavingChild q.key s'.leavingChildren }

/-- Translation of the body of the effect commented "Clear all timeouts on
unmount": clear every timeout id stored in `liveTimeouts`. Because the
effect has an empty dependency array, React runs this body once, right
after mount. -/
def clearAllTimeouts (s : EngineState) : EngineState :=
  { s with sched := { s.sched with
      queue := s.sched.queue.filter
        (fun q => !((s.sched.liveTimeouts.map Prod.snd).contains q.id)) } }

/-- What actually runs at unmount: the effect above returns no cleanup
function, so React has nothing to run at teardown and the engine state
(in particular the pending timeout queue) is left untouched. -/
def unmountCleanup (s : EngineState) : EngineState := s

/-- Construction of the component instance: the function body only
destructures its props and sets up the initial state; no validation of the
durations is performed anywhere, so construction cannot fail. The result is
wrapped in `Except` to make the absence of construction-time failure
statable. -/
def initEngine (children : List Elem) (enterDurationMs leaveDurationMs : Int) :
    Except String EngineState :=
  Except.ok (EngineState.mk children [] [] [] initScheduler)

/-- Concrete element used by the witnesses. -/
def elemA : Elem := Elem.mk "A" "a"

/-- Concrete element used by the witnesses. -/
def elemB : Elem := Elem.mk "B" "b"

/-- Concrete engine state used by the reinstatement witness: child B has been
removed (it sits in the leaving registry at merged index 1 with a pending
remove timeout), child A is still present. -/
def engineBeforeReinstate : EngineState :=
  EngineState.mk [elemA] [ElemWithIndex.mk elemB 1] [] []
    (SchedulerState.mk [("B", 1)] [PendingTimeout.mk 1 "B" TimeoutKind.remove] 2)

/-- Concrete engine state at mount, used for the teardown scenario. -/
def engineAtMount : EngineState :=
  EngineState.mk [elemA] [] [] [] initScheduler

/-! Helper lemmas shared between the claim theorems. -/

theorem contains_true_iff {l : List String} {a : String} : l.contains a = true ↔ a ∈ l := by
  simp [List.contains]

theorem elementDiff_eq_filter (comparedItems compareWith : List Elem) :
    elementDiff comparedItems compareWith =
      (comparedItems.enum.map (fun p => ElemWithIndex.mk p.2 p.1)).filter
        (fun p => !((compareWith.map (·.key)).contains p.element.key)) := by
  simp only [elementDiff]
  split
  · rfl
  · next h =>
    have h' := List.length_eq_zero.mp (not_ne_iff.mp h)
    rw [h']
    rfl

theorem not_contains_key_iff {ks : List String} {k : String} :
    (!(ks.contains k)) = true ↔ k ∉ ks := by
  simp [List.contains]

theorem mem_positioned_iff {l : List Elem} {p : ElemWithIndex} :
    p ∈ l.enum.map (fun q => ElemWithIndex.mk q.2 q.1) ↔ l[p.index]? = some p.element := by
  rw [List.mem_map]
  constructor
  · rintro ⟨⟨i, e⟩, hq, rfl⟩
    simpa using List.mk_mem_enum_iff_getElem?.mp hq
  · intro h
    exact ⟨(p.index, p.element), List.mk_mem_enum_iff_getElem?.mpr (by simpa using h), rfl⟩

/-- C8: elementDiff returns exactly the items of the reference list whose key
does not occur in the comparison list, each paired with its index within the
reference and kept in reference order (it is a sublist of the positioned
reference); it is pure by construction, and whenever nothing differs -- in
particular for `elementDiff X X` -- it returns the shared `EMPTY_ARRAY`
singleton. -/
theorem c8_elementDiff (reference comparison : List Elem) :
    List.Sublist (elementDiff reference comparison)
        (reference.enum.map (fun q => ElemWithIndex.mk q.2 q.1)) ∧
    (∀ p : ElemWithIndex,
        p ∈ elementDiff reference comparison ↔
          reference[p.index]? = some p.element ∧ ∀ c ∈ comparison, c.key ≠ p.element.key) ∧
    elementDiff reference reference = EMPTY_ARRAY := by
  refine ⟨?_, ?_, ?_⟩
  · rw [elementDiff_eq_filter]
    exact List.filter_sublist _
  · intro p
    rw [elementDiff_eq_filter, List.mem_filter, mem_positioned_iff, not_contains_key_iff]
    constructor
    · rintro ⟨h1, h2⟩
      exact ⟨h1, fun c hc hkey => h2 (List.mem_map.mpr ⟨c, hc, hkey⟩)⟩
    · rintro ⟨h1, h2⟩
      refine ⟨h1, fun hmem => ?_⟩
      obtain ⟨c, hc, hkey⟩ := List.mem_map.mp hmem
      exact h2 c hc hkey
  · rw [elementDiff_eq_filter]
    rw [show EMPTY_ARRAY = ([] : List ElemWithIndex) from rfl]
    rw [List.filter_eq_nil_iff]
    intro p hp
    have hel : p.element ∈ reference := List.getElem?_mem (mem_positioned_iff.mp hp)
    simp only [Bool.not_eq_true', Bool.not_eq_false]
    exact contains_true_iff.mpr (List.mem_map.mpr ⟨p.element, hel, rfl⟩)

theorem insertSortedBy_perm (a : ElemWithIndex) (l : List ElemWithIndex) :
    (insertSortedBy a l).Perm (a :: l) := by
  induction l with
  | nil => exact List.Perm.refl _
  | cons b rest ih =>
    unfold insertSortedBy
    by_cases h : b.index < a.index
    · rw [if_pos h]
      exact (ih.cons b).trans (List.Perm.swap a b rest)
    · rw [if_neg h]

theorem sortByIndex_perm (l : List ElemWithIndex) : (sortByIndex l).Perm l := by
  induction l with
  | nil => exact List.Perm.refl _
  | cons a rest ih => exact (insertSortedBy_perm a _).trans (ih.cons a)

theorem insertSortedBy_sorted (a : ElemWithIndex) (l : List ElemWithIndex)
    (h : l.Pairwise (fun x y => x.index ≤ y.index)) :
    (insertSortedBy a l).Pairwise (fun x y => x.index ≤ y.index) := by
  induction l with
  | nil => simp [insertSortedBy]
  | cons b rest ih =>
    rw [List.pairwise_cons] at h
    unfold insertSortedBy
    by_cases hb : b.index < a.index
    · rw [if_pos hb]
      rw [List.pairwise_cons]
      constructor
      · intro x hx
        have hx' := (insertSortedBy_perm a rest).mem_iff.mp hx
        rcases List.mem_cons.mp hx' with rfl | hx2
        · omega
        · exact h.1 x hx2
      · exact ih h.2
    · rw [if_neg hb]
      rw [List.pairwise_cons]
      constructor
      · intro x hx
        rcases List.mem_cons.mp hx with rfl | hx2
        · omega
        · have := h.1 x hx2
          omega
      · exact List.pairwise_cons.mpr h

theorem sortByIndex_sorted (l : List ElemWithIndex) :
    (sortByIndex l).Pairwise (fun x y => x.index ≤ y.index) := by
  induction l with
  | nil => simp [sortByIndex]
  | cons a rest ih => exact insertSortedBy_sorted a _ ih

/-- C2: `mergeInRemovedChildren` assigns each newly removed item of raw index
i the merged index i plus the offset obtained by walking the existing
registry (incrementing for every existing entry whose merged index is at
most i plus the offset so far), and returns the concatenation of the
existing registry with these new entries, sorted ascending by merged
index: the result is a permutation of that concatenation and is sorted. -/
theorem c2_mergeInRemovedChildren (removedChildren leavingChildren : List ElemWithIndex) :
    (mergeInRemovedChildren removedChildren leavingChildren).Perm
      (leavingChildren ++ removedChildren.map
        (fun r => ElemWithIndex.mk r.element (r.index + leavingIndexPush leavingChildren r.index))) ∧
    (mergeInRemovedChildren removedChildren leavingChildren).Pairwise
      (fun a b => a.index ≤ b.index) := by
  exact ⟨sortByIndex_perm _, sortByIndex_sorted _⟩

theorem removeLeavingChildAux_one_no_match (key : String) (l : List ElemWithIndex)
    (h : ∀ c ∈ l, c.element.key ≠ key) :
    removeLeavingChildAux key 1 l = l.map (fun c => ElemWithIndex.mk c.element (c.index - 1)) := by
  induction l with
  | nil => rfl
  | cons c rest ih =>
    have hc : ¬(c.element.key = key) := h c (by simp)
    simp only [removeLeavingChildAux, if_neg hc, List.map_cons]
    exact congrArg _ (ih (fun x hx => h x (by simp [hx])))

theorem removeLeavingChild_no_match (key : String) (l : List ElemWithIndex)
    (h : ∀ c ∈ l, c.element.key ≠ key) :
    removeLeavingChild key l = l := by
  unfold removeLeavingChild
  induction l with
  | nil => rfl
  | cons c rest ih =>
    have hc : ¬(c.element.key = key) := h c (by simp)
    simp only [removeLeavingChildAux, if_neg hc, Nat.sub_zero]
    exact congrArg (List.cons c) (ih (fun x hx => h x (by simp [hx])))

theorem removeLeavingChild_split (key : String) (pre rest : List ElemWithIndex)
    (h : ∀ c ∈ pre, c.element.key ≠ key) :
    removeLeavingChildAux key 0 (pre ++ rest) = pre ++ removeLeavingChildAux key 0 rest := by
  induction pre with
  | nil => rfl
  | cons c pre' ih =>
    have hc : ¬(c.element.key = key) := h c (by simp)
    simp only [List.cons_append, removeLeavingChildAux, if_neg hc, Nat.sub_zero]
    exact congrArg (List.cons c) (ih (fun x hx => h x (by simp [hx])))

/-- C3: on a registry that is strictly ascending by merged index, destroying
the (unique) entry for a key removes that entry, decrements by one the
merged index of every entry that came after it (exactly the entries with a
greater merged index) and leaves every earlier entry untouched; the result
is again strictly ascending, so merged indices stay dense. -/
theorem c3_removeLeavingChild (pre post : List ElemWithIndex) (x : ElemWithIndex)
    (hpre : ∀ c ∈ pre, c.element.key ≠ x.element.key)
    (hpost : ∀ c ∈ post, c.element.key ≠ x.element.key)
    (hsorted : (pre ++ x :: post).Pairwise (fun a b => a.index < b.index)) :
    removeLeavingChild x.element.key (pre ++ x :: post) =
      pre ++ post.map (fun c => ElemWithIndex.mk c.element (c.index - 1)) ∧
    (pre ++ post.map (fun c => ElemWithIndex.mk c.element (c.index - 1))).Pairwise
      (fun a b => a.index < b.index) := by
  rw [List.pairwise_append] at hsorted
  obtain ⟨hsortPre, hsortCons, hcross⟩ := hsorted
  rw [List.pairwise_cons] at hsortCons
  obtain ⟨hxlt, hsortPost⟩ := hsortCons
  constructor
  · unfold removeLeavingChild
    rw [removeLeavingChild_split x.element.key pre (x :: post) hpre]
    simp only [removeLeavingChildAux, if_pos rfl]
    rw [removeLeavingChildAux_one_no_match x.element.key post hpost]
    rw [if_pos trivial]
  · rw [List.pairwise_append]
    refine ⟨hsortPre, ?_, ?_⟩
    · rw [List.pairwise_map]
      refine hsortPost.imp_of_mem (fun ha hb hlt => ?_)
      have h1 := hxlt _ ha
      simpa using by omega
    · intro a ha b hb
      obtain ⟨c, hc, rfl⟩ := List.mem_map.mp hb
      have h1 := hxlt c hc
      have h2 := hcross a ha x (by simp)
      simpa using by omega

/-- Witness for C3: destroying B from the registry A@0, B@1, C@2 keeps A at 0
and shifts C down to 1. -/
theorem c3_removeLeavingChild_witness :
    removeLeavingChild "B"
        [ElemWithIndex.mk (Elem.mk "A" "a") 0, ElemWithIndex.mk (Elem.mk "B" "b") 1,
          ElemWithIndex.mk (Elem.mk "C" "c") 2] =
      [ElemWithIndex.mk (Elem.mk "A" "a") 0, ElemWithIndex.mk (Elem.mk "C" "c") 1] ∧
    ([ElemWithIndex.mk (Elem.mk "A" "a") 0,
      ElemWithIndex.mk (Elem.mk "C" "c") 1] : List ElemWithIndex).Pairwise
      (fun a b => a.index < b.index) :=
  c3_removeLeavingChild [ElemWithIndex.mk (Elem.mk "A" "a") 0]
    [ElemWithIndex.mk (Elem.mk "C" "c") 2] (ElemWithIndex.mk (Elem.mk "B" "b") 1)
    (by decide) (by decide) (by decide)

/-- C10: reinstating keys only filters the leaving registry: every surviving
entry is kept verbatim (the result is a sublist, so no merged index is
decremented or otherwise changed), every entry whose key is not reinstated
survives, and every surviving entry is an original entry whose key is not
among the reinstated keys. -/
theorem c10_reinstateLeavingChildren (addedKeys : List String) (l : List ElemWithIndex) :
    List.Sublist (reinstateLeavingChildren addedKeys l) l ∧
    (∀ c ∈ l, c.element.key ∉ addedKeys → c ∈ reinstateLeavingChildren addedKeys l) ∧
    (∀ c ∈ reinstateLeavingChildren addedKeys l,
        c ∈ l ∧ c.element.key ∉ addedKeys) := by
  refine ⟨List.filter_sublist _, ?_, ?_⟩
  · intro c hc hk
    exact List.mem_filter.mpr ⟨hc, not_contains_key_iff.mpr hk⟩
  · intro c hc
    have h := List.mem_filter.mp hc
    exact ⟨h.1, not_contains_key_iff.mp h.2⟩

/-- Witness for C10: reinstating B from the registry A@0, B@1, C@5 keeps A@0
and C@5 verbatim, with no index compaction. -/
theorem c10_reinstateLeavingChildren_witness :
    List.Sublist
      (reinstateLeavingChildren ["B"]
        [ElemWithIndex.mk (Elem.mk "A" "a") 0, ElemWithIndex.mk (Elem.mk "B" "b") 1,
          ElemWithIndex.mk (Elem.mk "C" "c") 5])
      [ElemWithIndex.mk (Elem.mk "A" "a") 0, ElemWithIndex.mk (Elem.mk "B" "b") 1,
        ElemWithIndex.mk (Elem.mk "C" "c") 5] ∧
    ElemWithIndex.mk (Elem.mk "C" "c") 5 ∈
      reinstateLeavingChildren ["B"]
        [ElemWithIndex.mk (Elem.mk "A" "a") 0, ElemWithIndex.mk (Elem.mk "B" "b") 1,
          ElemWithIndex.mk (Elem.mk "C" "c") 5] :=
  ⟨(c10_reinstateLeavingChildren ["B"] _).1,
    (c10_reinstateLeavingChildren ["B"]
        [ElemWithIndex.mk (Elem.mk "A" "a") 0, ElemWithIndex.mk (Elem.mk "B" "b") 1,
          ElemWithIndex.mk (Elem.mk "C" "c") 5]).2.1
      (ElemWithIndex.mk (Elem.mk "C" "c") 5) (by decide) (by decide)⟩

/-- C9 counterexample: constructing the component with non-positive durations
does not raise any error -- the constructor performs no validation and
returns the initial engine state even for zero and negative durations. -/
theorem c9_initEngine_counterexample :
    initEngine [] 0 (-1) = Except.ok (EngineState.mk [] [] [] [] initScheduler) := rfl

/-- C9 (amended): construction never fails; for every children list and all
durations, positive or not, the constructor returns the initial engine state
with no validation performed. -/
theorem c9_initEngine_never_fails (children : List Elem) (enterMs leaveMs : Int) :
    initEngine children enterMs leaveMs =
      Except.ok (EngineState.mk children [] [] [] initScheduler) := rfl

theorem fillChildren_length (n : String) (en ina : List String)
    (slots : List (Option RenderedChild)) (cs : List Elem) :
    (fillChildren n en ina slots cs).length = slots.length := by
  induction slots generalizing cs with
  | nil => simp [fillChildren]
  | cons a slots ih =>
    cases a with
    | none =>
      cases cs with
      | nil => simp [fillChildren, ih]
      | cons c cs => simp [fillChildren, ih]
    | some r => simp [fillChildren, ih]

theorem foldl_set_length (l : List ElemWithIndex) (n : String) (ina : List String)
    (init : List (Option RenderedChild)) :
    (l.foldl (fun slots lc =>
        slots.set lc.index (some (lc.element, leaveClassName n ina lc.element))) init).length =
      init.length := by
  induction l generalizing init with
  | nil => rfl
  | cons lc l ih => simp [List.foldl_cons, ih, List.length_set]

theorem placeLeavingChildren_length (total : Nat) (n : String) (ina : List String)
    (l : List ElemWithIndex) :
    (placeLeavingChildren total n ina l).length = total := by
  unfold placeLeavingChildren
  rw [foldl_set_length]
  exact List.length_replicate _ _

theorem foldl_set_getElem?_not_mem (l : List ElemWithIndex) (n : String) (ina : List String)
    (init : List (Option RenderedChild)) (j : Nat) (hj : j ∉ l.map (·.index)) :
    (l.foldl (fun slots lc =>
        slots.set lc.index (some (lc.element, leaveClassName n ina lc.element))) init)[j]? =
      init[j]? := by
  induction l generalizing init with
  | nil => rfl
  | cons lc l ih =>
    simp only [List.map_cons, List.mem_cons, not_or] at hj
    rw [List.foldl_cons, ih _ hj.2, List.getElem?_set_ne (fun h => hj.1 h.symm)]

theorem foldl_set_getElem?_mem (l : List ElemWithIndex) (n : String) (ina : List String)
    (init : List (Option RenderedChild)) (hnd : (l.map (·.index)).Nodup)
    (hlt : ∀ lc ∈ l, lc.index < init.length) (e : ElemWithIndex) (he : e ∈ l) :
    (l.foldl (fun slots lc =>
        slots.set lc.index (some (lc.element, leaveClassName n ina lc.element))) init)[e.index]? =
      some (some (e.element, leaveClassName n ina e.element)) := by
  induction l generalizing init with
  | nil => cases he
  | cons lc l ih =>
    simp only [List.map_cons, List.nodup_cons] at hnd
    rw [List.foldl_cons]
    rcases List.mem_cons.mp he with rfl | he'
    · rw [foldl_set_getElem?_not_mem l n ina _ _ hnd.1]
      exact List.getElem?_set_self (hlt e (by simp))
    · exact ih _ hnd.2
        (fun c hc => by rw [List.length_set]; exact hlt c (by simp [hc])) he'

theorem countP_isNone_add_isSome (l : List (Option RenderedChild)) :
    l.countP (fun o => o.isNone) + l.countP (fun o => o.isSome) = l.length := by
  induction l with
  | nil => rfl
  | cons a l ih =>
    cases a <;> simp [List.countP_cons] <;> omega

theorem countP_set_some (l : List (Option RenderedChild)) (i : Nat) (v : RenderedChild)
    (h : l[i]? = some none) :
    (l.set i (some v)).countP (fun o => o.isSome) = l.countP (fun o => o.isSome) + 1 := by
  induction l generalizing i with
  | nil => simp at h
  | cons a l ih =>
    cases i with
    | zero =>
      have : a = none := by simpa using h
      subst this
      simp [List.countP_cons]
    | succ i =>
      have h' : l[i]? = some none := by simpa using h
      cases a <;> simp [List.countP_cons, ih i h']

theorem foldl_set_countP (l : List ElemWithIndex) (n : String) (ina : List String)
    (init : List (Option RenderedChild)) (hnd : (l.map (·.index)).Nodup)
    (hmem : ∀ lc ∈ l, init[lc.index]? = some none) :
    (l.foldl (fun slots lc =>
        slots.set lc.index (some (lc.element, leaveClassName n ina lc.element))) init).countP
        (fun o => o.isSome) =
      init.countP (fun o => o.isSome) + l.length := by
  induction l generalizing init with
  | nil => rfl
  | cons lc l ih =>
    simp only [List.map_cons, List.nodup_cons] at hnd
    rw [List.foldl_cons]
    have hmem' : ∀ c ∈ l,
        (init.set lc.index (some (lc.element, leaveClassName n ina lc.element)))[c.index]? =
          some none := by
      intro c hc
      rw [List.getElem?_set_ne]
      · exact hmem c (by simp [hc])
      · intro hEq
        exact hnd.1 (by rw [hEq]; exact List.mem_map.mpr ⟨c, hc, rfl⟩)
    rw [ih _ hnd.2 hmem']
    rw [countP_set_some init lc.index _ (hmem lc (by simp))]
    simp only [List.length_cons]
    omega

theorem countP_isNone_replicate (total : Nat) :
    ((List.replicate total none : List (Option RenderedChild)).countP (fun o => o.isSome)) = 0 := by
  induction total with
  | zero => rfl
  | succ t ih => simp [List.replicate_succ, List.countP_cons, ih]

theorem placeLeavingChildren_countP_isNone (total : Nat) (n : String) (ina : List String)
    (l : List ElemWithIndex) (hnd : (l.map (·.index)).Nodup)
    (hlt : ∀ lc ∈ l, lc.index < total) :
    (placeLeavingChildren total n ina l).countP (fun o => o.isNone) = total - l.length := by
  have hsome : (placeLeavingChildren total n ina l).countP (fun o => o.isSome) = l.length := by
    unfold placeLeavingChildren
    rw [foldl_set_countP l n ina _ hnd
      (fun lc hlc => by simp [List.getElem?_replicate, hlt lc hlc])]
    rw [countP_isNone_replicate]
    omega
  have hlen := placeLeavingChildren_length total n ina l
  have h := countP_isNone_add_isSome (placeLeavingChildren total n ina l)
  omega

theorem fillChildren_all_isSome (n : String) (en ina : List String)
    (slots : List (Option RenderedChild)) (cs : List Elem)
    (h : slots.countP (fun o => o.isNone) ≤ cs.length) :
    ∀ x ∈ fillChildren n en ina slots cs, x.isSome := by
  induction slots generalizing cs with
  | nil => intro x hx; simp [fillChildren] at hx
  | cons a slots ih =>
    cases a with
    | some r =>
      intro x hx
      rw [show fillChildren n en ina (some r :: slots) cs =
          some r :: fillChildren n en ina slots cs from rfl] at hx
      rcases List.mem_cons.mp hx with rfl | hx'
      · rfl
      · exact ih cs (by simpa [List.countP_cons] using h) x hx'
    | none =>
      cases cs with
      | nil =>
        exfalso
        simp [List.countP_cons] at h
      | cons c cs' =>
        intro x hx
        rw [show fillChildren n en ina (none :: slots) (c :: cs') =
            some (c, enterClassName n en ina c) ::
              fillChildren n en ina slots cs' from rfl] at hx
        rcases List.mem_cons.mp hx with rfl | hx'
        · rfl
        · refine ih cs' ?_ x hx'
          simp only [List.countP_cons, List.length_cons] at h ⊢
          simp at h
          omega

theorem fillChildren_getElem?_some (n : String) (en ina : List String)
    (slots : List (Option RenderedChild)) (cs : List Elem) (i : Nat) (r : RenderedChild)
    (h : slots[i]? = some (some r)) :
    (fillChildren n en ina slots cs)[i]? = some (some r) := by
  induction slots generalizing cs i with
  | nil => simp at h
  | cons a slots ih =>
    cases a with
    | some r' =>
      cases i with
      | zero =>
        rw [show fillChildren n en ina (some r' :: slots) cs =
            some r' :: fillChildren n en ina slots cs from rfl]
        simpa using h
      | succ i =>
        rw [show fillChildren n en ina (some r' :: slots) cs =
            some r' :: fillChildren n en ina slots cs from rfl]
        simpa using ih cs i (by simpa using h)
    | none =>
      cases i with
      | zero => simp at h
      | succ i =>
        cases cs with
        | nil =>
          rw [show fillChildren n en ina (none :: slots) [] =
              none :: fillChildren n en ina slots [] from rfl]
          simpa using ih [] i (by simpa using h)
        | cons c cs' =>
          rw [show fillChildren n en ina (none :: slots) (c :: cs') =
              some (c, enterClassName n en ina c) ::
                fillChildren n en ina slots cs' from rfl]
          simpa using ih cs' i (by simpa using h)

theorem gapEntries_fillChildren (n : String) (en ina : List String)
    (slots : List (Option RenderedChild)) (cs : List Elem)
    (h : slots.countP (fun o => o.isNone) = cs.length) :
    gapEntries slots (fillChildren n en ina slots cs) =
      cs.map (fun c => some (c, enterClassName n en ina c)) := by
  induction slots generalizing cs with
  | nil =>
    have hcs : cs = [] := by
      have : cs.length = 0 := by simpa using h.symm
      simpa [List.length_eq_zero] using this
    subst hcs
    rfl
  | cons a slots ih =>
    cases a with
    | some r =>
      rw [show fillChildren n en ina (some r :: slots) cs =
          some r :: fillChildren n en ina slots cs from rfl]
      rw [show gapEntries (some r :: slots) (some r :: fillChildren n en ina slots cs) =
          gapEntries slots (fillChildren n en ina slots cs) from rfl]
      exact ih cs (by simpa [List.countP_cons] using h)
    | none =>
      cases cs with
      | nil =>
        exfalso
        simp [List.countP_cons] at h
      | cons c cs' =>
        rw [show fillChildren n en ina (none :: slots) (c :: cs') =
            some (c, enterClassName n en ina c) ::
              fillChildren n en ina slots cs' from rfl]
        rw [show gapEntries (none :: slots)
            (some (c, enterClassName n en ina c) :: fillChildren n en ina slots cs') =
            some (c, enterClassName n en ina c) ::
              gapEntries slots (fillChildren n en ina slots cs') from rfl]
        rw [List.map_cons]
        refine congrArg _ (ih cs' ?_)
        simp only [List.countP_cons, List.length_cons] at h
        simp at h
        omega

theorem fillChildren_mem (n : String) (en ina : List String)
    (slots : List (Option RenderedChild)) (cs : List Elem) (x : RenderedChild)
    (h : some x ∈ fillChildren n en ina slots cs) :
    some x ∈ slots ∨ ∃ c ∈ cs, x = (c, enterClassName n en ina c) := by
  induction slots generalizing cs with
  | nil => simp [fillChildren] at h
  | cons a slots ih =>
    cases a with
    | some r =>
      rw [show fillChildren n en ina (some r :: slots) cs =
          some r :: fillChildren n en ina slots cs from rfl] at h
      rcases List.mem_cons.mp h with hEq | h'
      · exact Or.inl (by rw [hEq]; simp)
      · rcases ih cs h' with h2 | h2
        · exact Or.inl (by simp [h2])
        · exact Or.inr h2
    | none =>
      cases cs with
      | nil =>
        rw [show fillChildren n en ina (none :: slots) [] =
            none :: fillChildren n en ina slots [] from rfl] at h
        rcases List.mem_cons.mp h with hEq | h'
        · simp at hEq
        · rcases ih [] h' with h2 | h2
          · exact Or.inl (by simp [h2])
          · simp at h2
      | cons c cs' =>
        rw [show fillChildren n en ina (none :: slots) (c :: cs') =
            some (c, enterClassName n en ina c) ::
              fillChildren n en ina slots cs' from rfl] at h
        rcases List.mem_cons.mp h with hEq | h'
        · refine Or.inr ⟨c, by simp, ?_⟩
          simpa using hEq
        · rcases ih cs' h' with h2 | h2
          · exact Or.inl (by simp [h2])
          · obtain ⟨c', hc', hx⟩ := h2
            exact Or.inr ⟨c', by simp [hc'], hx⟩

theorem foldl_set_mem (l : List ElemWithIndex) (n : String) (ina : List String)
    (init : List (Option RenderedChild)) (x : RenderedChild)
    (h : some x ∈ l.foldl (fun slots lc =>
        slots.set lc.index (some (lc.element, leaveClassName n ina lc.element))) init) :
    some x ∈ init ∨ ∃ lc ∈ l, x = (lc.element, leaveClassName n ina lc.element) := by
  induction l generalizing init with
  | nil => exact Or.inl h
  | cons lc l ih =>
    rw [List.foldl_cons] at h
    rcases ih _ h with h2 | h2
    · rcases List.mem_or_eq_of_mem_set h2 with h3 | h3
      · exact Or.inl h3
      · refine Or.inr ⟨lc, by simp, ?_⟩
        simpa using h3
    · obtain ⟨lc', hlc', hx⟩ := h2
      exact Or.inr ⟨lc', by simp [hlc'], hx⟩

theorem placeLeavingChildren_mem (total : Nat) (n : String) (ina : List String)
    (l : List ElemWithIndex) (x : RenderedChild)
    (h : some x ∈ placeLeavingChildren total n ina l) :
    ∃ lc ∈ l, x = (lc.element, leaveClassName n ina lc.element) := by
  unfold placeLeavingChildren at h
  rcases foldl_set_mem l n ina _ x h with h2 | h2
  · have := List.eq_of_mem_replicate h2
    simp at this
  · exact h2

theorem childrenToRender_mem (n : String) (currentChildren : List Elem)
    (leavingChildren : List ElemWithIndex) (en ina : List String) (x : RenderedChild)
    (h : some x ∈ childrenToRender n currentChildren leavingChildren en ina) :
    (∃ lc ∈ leavingChildren, x = (lc.element, leaveClassName n ina lc.element)) ∨
    ∃ c ∈ currentChildren, x = (c, enterClassName n en ina c) := by
  unfold childrenToRender at h
  rcases fillChildren_mem n en ina _ _ x h with h2 | h2
  · exact Or.inl (placeLeavingChildren_mem _ n ina _ x h2)
  · exact Or.inr h2

/-- C1: for every reconciliation pass whose leaving registry carries
distinct, in-range merged indices, the merged output produced by
`childrenToRender` has length `currentChildren.length +
leavingChildren.length`, every slot of it is filled (no gaps, no slot
filled twice -- each slot holds exactly one entry), every leaving entry
occupies its own merged index, and the current children fill exactly the
remaining slots in their own order. -/
theorem c1_childrenToRender (n : String) (currentChildren : List Elem)
    (leavingChildren : List ElemWithIndex) (en ina : List String)
    (hnd : (leavingChildren.map (·.index)).Nodup)
    (hlt : ∀ lc ∈ leavingChildren,
        lc.index < currentChildren.length + leavingChildren.length) :
    (childrenToRender n currentChildren leavingChildren en ina).length =
        currentChildren.length + leavingChildren.length ∧
    (∀ x ∈ childrenToRender n currentChildren leavingChildren en ina, x.isSome) ∧
    (∀ lc ∈ leavingChildren,
        ∃ s, (childrenToRender n currentChildren leavingChildren en ina)[lc.index]? =
          some (some (lc.element, s))) ∧
    (gapEntries
        (placeLeavingChildren (currentChildren.length + leavingChildren.length) n ina
          leavingChildren)
        (childrenToRender n currentChildren leavingChildren en ina)).map
          (fun o => o.map Prod.fst) =
      currentChildren.map (fun c => some c) := by
  have hcount := placeLeavingChildren_countP_isNone
    (currentChildren.length + leavingChildren.length) n ina leavingChildren hnd hlt
  have hcount' : (placeLeavingChildren (currentChildren.length + leavingChildren.length)
      n ina leavingChildren).countP (fun o => o.isNone) = currentChildren.length := by
    omega
  refine ⟨?_, ?_, ?_, ?_⟩
  · unfold childrenToRender
    rw [fillChildren_length, placeLeavingChildren_length]
  · intro x hx
    exact fillChildren_all_isSome n en ina _ _ (le_of_eq hcount') x hx
  · intro lc hlc
    refine ⟨leaveClassName n ina lc.element, ?_⟩
    unfold childrenToRender
    apply fillChildren_getElem?_some
    unfold placeLeavingChildren
    exact foldl_set_getElem?_mem leavingChildren n ina _ hnd
      (fun c hc => by
        rw [List.length_replicate]
        exact hlt c hc) lc hlc
  · unfold childrenToRender
    rw [gapEntries_fillChildren n en ina _ _ hcount']
    rw [List.map_map]
    exact List.map_congr_left (fun c _ => rfl)

/-- Witness for C1: one current child A and one leaving child B at merged
index 1 produce a fully filled two-slot output with B at slot 1 and A in
the remaining slot. -/
theorem c1_childrenToRender_witness :
    (childrenToRender "t" [elemA] [ElemWithIndex.mk elemB 1] ["A"] []).length = 2 ∧
    (∀ x ∈ childrenToRender "t" [elemA] [ElemWithIndex.mk elemB 1] ["A"] [], x.isSome) ∧
    (∀ lc ∈ [ElemWithIndex.mk elemB 1],
        ∃ s, (childrenToRender "t" [elemA] [ElemWithIndex.mk elemB 1] ["A"] [])[lc.index]? =
          some (some (lc.element, s))) ∧
    (gapEntries (placeLeavingChildren 2 "t" [] [ElemWithIndex.mk elemB 1])
        (childrenToRender "t" [elemA] [ElemWithIndex.mk elemB 1] ["A"] [])).map
          (fun o => o.map Prod.fst) =
      [elemA].map (fun c => some c) :=
  c1_childrenToRender "t" [elemA] [ElemWithIndex.mk elemB 1] ["A"] [] (by decide) (by decide)

theorem leaveClassName_eq (n : String) (ina : List String) (e : Elem) :
    leaveClassName n ina e =
      if ina.contains e.key then n ++ "-leave "
      else n ++ "-leave " ++ (n ++ "-leave-active") := by
  unfold leaveClassName
  cases hc : ina.contains e.key <;> simp [hc]

/-- C4 counterexample: with transition name "t", a leaving entry whose key is
not in the inactive set is emitted with the class string
"t-leave t-leave-active" -- the base leave class is kept alongside the
active one -- and not with the bare tag "t-leave-active" the claim states. -/
theorem c4_counterexample :
    (childrenToRender "t" [] [ElemWithIndex.mk elemB 0] [] [])[0]? =
      some (some (elemB, "t-leave t-leave-active")) ∧
    "t-leave t-leave-active" ≠ "t-leave-active" :=
  ⟨rfl, by decide⟩

/-- C4 (amended): each leaving entry is emitted at its merged index with
class string "<prefix>-leave " (trailing space) when its key is in the
inactive set and "<prefix>-leave <prefix>-leave-active" when it is not;
each current child fills the gaps in order and is emitted with "" when its
key is not entering, "<prefix>-enter" when it is entering and inactive, and
"<prefix>-enter <prefix>-enter-active" when it is entering and not
inactive. -/
theorem c4_phase_tags (n : String) (currentChildren : List Elem)
    (leavingChildren : List ElemWithIndex) (en ina : List String)
    (hnd : (leavingChildren.map (·.index)).Nodup)
    (hlt : ∀ lc ∈ leavingChildren,
        lc.index < currentChildren.length + leavingChildren.length) :
    (∀ lc ∈ leavingChildren,
        (childrenToRender n currentChildren leavingChildren en ina)[lc.index]? =
          some (some (lc.element,
            if ina.contains lc.element.key then n ++ "-leave "
            else n ++ "-leave " ++ (n ++ "-leave-active")))) ∧
    gapEntries
        (placeLeavingChildren (currentChildren.length + leavingChildren.length) n ina
          leavingChildren)
        (childrenToRender n currentChildren leavingChildren en ina) =
      currentChildren.map (fun c => some (c,
        if en.contains c.key then
          if ina.contains c.key then n ++ "-enter"
          else n ++ "-enter " ++ n ++ "-enter-active"
        else "")) := by
  have hcount := placeLeavingChildren_countP_isNone
    (currentChildren.length + leavingChildren.length) n ina leavingChildren hnd hlt
  have hcount' : (placeLeavingChildren (currentChildren.length + leavingChildren.length)
      n ina leavingChildren).countP (fun o => o.isNone) = currentChildren.length := by
    omega
  constructor
  · intro lc hlc
    rw [← leaveClassName_eq]
    unfold childrenToRender
    apply fillChildren_getElem?_some
    unfold placeLeavingChildren
    exact foldl_set_getElem?_mem leavingChildren n ina _ hnd
      (fun c hc => by
        rw [List.length_replicate]
        exact hlt c hc) lc hlc
  · unfold childrenToRender
    rw [gapEntries_fillChildren n en ina _ _ hcount']
    rfl

/-- Witness for C4: current child A entering and active, leaving child B
inactive at merged index 1, transition name "t". -/
theorem c4_phase_tags_witness :
    (∀ lc ∈ [ElemWithIndex.mk elemB 1],
        (childrenToRender "t" [elemA] [ElemWithIndex.mk elemB 1] ["A"] ["B"])[lc.index]? =
          some (some (lc.element,
            if ["B"].contains lc.element.key then "t" ++ "-leave "
            else "t" ++ "-leave " ++ ("t" ++ "-leave-active")))) ∧
    gapEntries (placeLeavingChildren 2 "t" ["B"] [ElemWithIndex.mk elemB 1])
        (childrenToRender "t" [elemA] [ElemWithIndex.mk elemB 1] ["A"] ["B"]) =
      [elemA].map (fun c => some (c,
        if (["A"] : List String).contains c.key then
          if (["B"] : List String).contains c.key then "t" ++ "-enter"
          else "t" ++ "-enter " ++ "t" ++ "-enter-active"
        else "")) :=
  c4_phase_tags "t" [elemA] [ElemWithIndex.mk elemB 1] ["A"] ["B"] (by decide) (by decide)

theorem mapGet_mapSet_self (m : List (String × Nat)) (k : String) (v : Nat) :
    mapGet (mapSet m k v) k = some v := by
  induction m with
  | nil => simp [mapSet, mapGet]
  | cons p rest ih =>
    by_cases h : p.1 = k
    · simp [mapSet, h, mapGet]
    · simp [mapSet, h, mapGet, ih]

theorem mapGet_mapSet_ne (m : List (String × Nat)) (k k' : String) (v : Nat) (h : k ≠ k') :
    mapGet (mapSet m k v) k' = mapGet m k' := by
  induction m with
  | nil => simp [mapSet, mapGet, h]
  | cons p rest ih =>
    by_cases hp : p.1 = k
    · simp [mapSet, hp, mapGet, h]
    · simp only [mapSet, if_neg hp, mapGet]
      by_cases hp' : p.1 = k'
      · simp [hp']
      · simp [hp', ih]

theorem mapGet_mem (m : List (String × Nat)) (k : String) (v : Nat)
    (h : mapGet m k = some v) : (k, v) ∈ m := by
  induction m with
  | nil => simp [mapGet] at h
  | cons p rest ih =>
    obtain ⟨a, b⟩ := p
    by_cases hp : a = k
    · simp only [mapGet, if_pos hp] at h
      subst hp
      obtain rfl : b = v := by simpa using h
      simp
    · simp only [mapGet, if_neg hp] at h
      exact List.mem_cons_of_mem _ (ih h)

theorem mem_mapSet (m : List (String × Nat)) (k : String) (v : Nat) (p : String × Nat)
    (h : p ∈ mapSet m k v) : p ∈ m ∨ p = (k, v) := by
  induction m with
  | nil => simpa [mapSet] using h
  | cons q rest ih =>
    by_cases hq : q.1 = k
    · rw [show mapSet (q :: rest) k v = (k, v) :: rest from by simp [mapSet, hq]] at h
      rcases List.mem_cons.mp h with rfl | h'
      · exact Or.inr rfl
      · exact Or.inl (List.mem_cons_of_mem _ h')
    · rw [show mapSet (q :: rest) k v = q :: mapSet rest k v from by simp [mapSet, hq]] at h
      rcases List.mem_cons.mp h with rfl | h'
      · exact Or.inl (by simp)
      · rcases ih h' with h2 | h2
        · exact Or.inl (List.mem_cons_of_mem _ h2)
        · exact Or.inr h2

theorem mapSet_keys_mem (m : List (String × Nat)) (k : String) (v : Nat) (j : String)
    (h : j ∈ (mapSet m k v).map Prod.fst) : j ∈ m.map Prod.fst ∨ j = k := by
  obtain ⟨p, hp, rfl⟩ := List.mem_map.mp h
  rcases mem_mapSet m k v p hp with h2 | h2
  · exact Or.inl (List.mem_map.mpr ⟨p, h2, rfl⟩)
  · exact Or.inr (by rw [h2])

theorem mapSet_keys_nodup (m : List (String × Nat)) (k : String) (v : Nat)
    (h : (m.map Prod.fst).Nodup) : ((mapSet m k v).map Prod.fst).Nodup := by
  induction m with
  | nil => simp [mapSet]
  | cons q rest ih =>
    simp only [List.map_cons, List.nodup_cons] at h
    by_cases hq : q.1 = k
    · rw [show mapSet (q :: rest) k v = (k, v) :: rest from by simp [mapSet, hq]]
      simp only [List.map_cons, List.nodup_cons]
      exact ⟨by rw [← hq]; exact h.1, h.2⟩
    · rw [show mapSet (q :: rest) k v = q :: mapSet rest k v from by simp [mapSet, hq]]
      simp only [List.map_cons, List.nodup_cons]
      refine ⟨fun hmem => ?_, ih h.2⟩
      rcases mapSet_keys_mem rest k v q.1 hmem with h2 | h2
      · exact h.1 h2
      · exact hq h2

theorem mapSet_values_mem (m : List (String × Nat)) (k : String) (v : Nat) (w : Nat)
    (h : w ∈ (mapSet m k v).map Prod.snd) : w ∈ m.map Prod.snd ∨ w = v := by
  obtain ⟨p, hp, rfl⟩ := List.mem_map.mp h
  rcases mem_mapSet m k v p hp with h2 | h2
  · exact Or.inl (List.mem_map.mpr ⟨p, h2, rfl⟩)
  · exact Or.inr (by rw [h2])

theorem mapSet_values_nodup (m : List (String × Nat)) (k : String) (v : Nat)
    (hnd : (m.map Prod.snd).Nodup) (hv : v ∉ m.map Prod.snd) :
    ((mapSet m k v).map Prod.snd).Nodup := by
  induction m with
  | nil => simp [mapSet]
  | cons q rest ih =>
    simp only [List.map_cons, List.nodup_cons] at hnd
    simp only [List.map_cons, List.mem_cons, not_or] at hv
    by_cases hq : q.1 = k
    · rw [show mapSet (q :: rest) k v = (k, v) :: rest from by simp [mapSet, hq]]
      simp only [List.map_cons, List.nodup_cons]
      exact ⟨fun hmem => hv.2 hmem, hnd.2⟩
    · rw [show mapSet (q :: rest) k v = q :: mapSet rest k v from by simp [mapSet, hq]]
      simp only [List.map_cons, List.nodup_cons]
      refine ⟨fun hmem => ?_, ih hnd.2 hv.2⟩
      rcases mapSet_values_mem rest k v q.2 hmem with h2 | h2
      · exact hnd.1 h2
      · exact hv.1 h2.symm

theorem mapGet_inj (m : List (String × Nat)) (hnd : (m.map Prod.snd).Nodup)
    (k k' : String) (t : Nat) (h1 : mapGet m k = some t) (h2 : mapGet m k' = some t) :
    k = k' := by
  have m1 := mapGet_mem m k t h1
  have m2 := mapGet_mem m k' t h2
  have := List.inj_on_of_nodup_map hnd m1 m2 rfl
  exact congrArg Prod.fst this

theorem clearLiveTimeout_queue_eq (k : String) (s : SchedulerState) (hInv : SchedulerInv s) :
    (clearLiveTimeout k s).queue = s.queue.filter (fun q => !(q.key == k)) ∧
    (clearLiveTimeout k s).liveTimeouts = s.liveTimeouts ∧
    (clearLiveTimeout k s).counter = s.counter := by
  obtain ⟨h1, h2, h3, h4, h5, h6⟩ := hInv
  unfold clearLiveTimeout
  cases hm : mapGet s.liveTimeouts k with
  | none =>
    dsimp only
    refine ⟨?_, rfl, rfl⟩
    rw [eq_comm, List.filter_eq_self]
    intro q hq
    simp only [Bool.not_eq_true', beq_eq_false_iff_ne, ne_eq]
    intro hqk
    have htr := h1 q hq
    rw [hqk, hm] at htr
    cases htr
  | some t =>
    dsimp only
    have htpos : 1 ≤ t := (h5 _ (mapGet_mem _ _ _ hm)).1
    rw [if_neg (by omega : ¬ t = 0)]
    refine ⟨?_, rfl, rfl⟩
    apply List.filter_congr
    intro q hq
    by_cases hqk : q.key = k
    · have := h1 q hq
      rw [hqk, hm] at this
      obtain rfl : q.id = t := by simpa using this.symm
      simp [hqk]
    · have hne : q.id ≠ t := by
        intro hEq
        apply hqk
        exact mapGet_inj s.liveTimeouts h4 q.key k q.id (h1 q hq) (by rw [hEq]; exact hm)
      simp [hne, hqk]

theorem scheduleTimeout_normal (k : String) (kind : TimeoutKind) (s : SchedulerState)
    (hInv : SchedulerInv s) :
    (scheduleTimeout k kind s).queue =
        s.queue.filter (fun q => !(q.key == k)) ++ [PendingTimeout.mk s.counter k kind] ∧
    (scheduleTimeout k kind s).liveTimeouts = mapSet s.liveTimeouts k s.counter ∧
    (scheduleTimeout k kind s).counter = s.counter + 1 := by
  obtain ⟨hq, hl, hc⟩ := clearLiveTimeout_queue_eq k s hInv
  unfold scheduleTimeout
  dsimp only
  exact ⟨by rw [hq, hc], by rw [hl, hc], by rw [hc]⟩

theorem length_filter_and_le (p q : PendingTimeout → Bool) (l : List PendingTimeout) :
    (l.filter (fun a => p a && q a)).length ≤ (l.filter p).length := by
  induction l with
  | nil => simp
  | cons a l ih =>
    by_cases hp : p a <;> by_cases hq : q a <;>
      simp [List.filter_cons, hp, hq] <;> omega

theorem schedulerInv_schedule (k : String) (kind : TimeoutKind) (s : SchedulerState)
    (hInv : SchedulerInv s) : SchedulerInv (scheduleTimeout k kind s) := by
  obtain ⟨hqn, hln, hcn⟩ := scheduleTimeout_normal k kind s hInv
  obtain ⟨h1, h2, h3, h4, h5, h6⟩ := hInv
  refine ⟨?_, ?_, ?_, ?_, ?_, ?_⟩
  · intro q hq
    rw [hqn] at hq
    rw [hln]
    rcases List.mem_append.mp hq with h | h
    · obtain ⟨hql, hqf⟩ := List.mem_filter.mp h
      have hne : k ≠ q.key := by
        intro hEq
        rw [← hEq] at hqf
        simp at hqf
      rw [mapGet_mapSet_ne _ _ _ _ hne]
      exact h1 q hql
    · obtain rfl : q = PendingTimeout.mk s.counter k kind := by simpa using h
      exact mapGet_mapSet_self _ _ _
  · intro k'
    rw [hqn, List.filter_append]
    by_cases hk : k' = k
    · subst hk
      have hnil : (s.queue.filter (fun q => !(q.key == k'))).filter
          (fun q => q.key == k') = [] := by
        rw [List.filter_filter]
        rw [List.filter_eq_nil_iff]
        intro a _
        cases h : a.key == k' <;> simp [h]
      rw [List.filter_filter, ← List.filter_filter, hnil]
      simp
    · rw [List.length_append, List.filter_filter]
      have h1le : (s.queue.filter (fun a => (a.key == k') && !(a.key == k))).length ≤
          (s.queue.filter (fun a => a.key == k')).length := length_filter_and_le _ _ _
      have h2le := h2 k'
      have hsingle : (List.filter (fun q => q.key == k')
          [PendingTimeout.mk s.counter k kind]).length = 0 := by
        simp [List.filter_cons, beq_iff_eq]
        intro hEq
        exact absurd hEq.symm hk
      omega
  · rw [hln]
    exact mapSet_keys_nodup _ _ _ h3
  · rw [hln]
    apply mapSet_values_nodup _ _ _ h4
    intro hmem
    obtain ⟨p, hp, hps⟩ := List.mem_map.mp hmem
    have := (h5 p hp).2
    omega
  · intro p hp
    rw [hln] at hp
    rw [hcn]
    rcases mem_mapSet _ _ _ _ hp with h | h
    · have := h5 p h
      omega
    · rw [h]
      simp only
      omega
  · rw [hcn]
    omega

theorem schedulerInv_fire (id : Nat) (s : SchedulerState) (hInv : SchedulerInv s) :
    SchedulerInv (hostFireTimeout id s) := by
  obtain ⟨h1, h2, h3, h4, h5, h6⟩ := hInv
  refine ⟨?_, ?_, h3, h4, h5, h6⟩
  · intro q hq
    exact h1 q (List.mem_of_mem_filter hq)
  · intro k'
    unfold hostFireTimeout
    dsimp only
    rw [List.filter_filter]
    calc (s.queue.filter (fun a => (a.key == k') && !(a.id == id))).length ≤
        (s.queue.filter (fun a => a.key == k')).length := length_filter_and_le _ _ _
      _ ≤ 1 := h2 k'

theorem schedulerInv_step (s : SchedulerState) (e : SchedulerEvent) (h : SchedulerInv s) :
    SchedulerInv (schedStep s e) := by
  cases e with
  | schedule k kind => exact schedulerInv_schedule k kind s h
  | fire id => exact schedulerInv_fire id s h

theorem schedulerInv_init : SchedulerInv initScheduler := by
  refine ⟨?_, ?_, ?_, ?_, ?_, ?_⟩ <;> simp [initScheduler, mapGet]

theorem schedulerInv_runFrom (s : SchedulerState) (h : SchedulerInv s)
    (evs : List SchedulerEvent) : SchedulerInv (runSchedulerFrom s evs) := by
  induction evs generalizing s with
  | nil => exact h
  | cons e evs ih => exact ih _ (schedulerInv_step s e h)

theorem schedulerInv_run (evs : List SchedulerEvent) : SchedulerInv (runScheduler evs) :=
  schedulerInv_runFrom _ schedulerInv_init evs

theorem clearLiveTimeout_fields (k : String) (s : SchedulerState) :
    List.Sublist (clearLiveTimeout k s).queue s.queue ∧
    (clearLiveTimeout k s).counter = s.counter := by
  unfold clearLiveTimeout
  cases mapGet s.liveTimeouts k with
  | none => exact ⟨List.Sublist.refl _, rfl⟩
  | some t =>
    dsimp only
    by_cases h : t = 0
    · rw [if_pos h]
      exact ⟨List.Sublist.refl _, rfl⟩
    · rw [if_neg h]
      exact ⟨List.filter_sublist _, rfl⟩

theorem stale_id_step (s : SchedulerState) (e : SchedulerEvent) (id : Nat)
    (h1 : id ∉ s.queue.map (fun q => q.id)) (h2 : id < s.counter) :
    id ∉ (schedStep s e).queue.map (fun q => q.id) ∧ id < (schedStep s e).counter := by
  cases e with
  | schedule k kind =>
    obtain ⟨hsub, hcnt⟩ := clearLiveTimeout_fields k s
    show id ∉ (scheduleTimeout k kind s).queue.map (fun q => q.id) ∧
      id < (scheduleTimeout k kind s).counter
    unfold scheduleTimeout
    dsimp only
    constructor
    · intro hmem
      rw [List.map_append, List.mem_append] at hmem
      rcases hmem with h | h
      · exact h1 ((hsub.map (fun q => q.id)).subset h)
      · rw [hcnt] at h
        simp at h
        omega
    · rw [hcnt]
      omega
  | fire fid =>
    refine ⟨?_, h2⟩
    intro hmem
    rw [show schedStep s (SchedulerEvent.fire fid) = hostFireTimeout fid s from rfl] at hmem
    unfold hostFireTimeout at hmem
    dsimp only at hmem
    obtain ⟨q, hq, hqid⟩ := List.mem_map.mp hmem
    exact h1 (List.mem_map.mpr ⟨q, List.mem_of_mem_filter hq, hqid⟩)

theorem stale_id_runFrom (s : SchedulerState) (evs : List SchedulerEvent) (id : Nat)
    (h1 : id ∉ s.queue.map (fun q => q.id)) (h2 : id < s.counter) :
    id ∉ (runSchedulerFrom s evs).queue.map (fun q => q.id) := by
  induction evs generalizing s with
  | nil => exact h1
  | cons e evs ih =>
    obtain ⟨h1', h2'⟩ := stale_id_step s e id h1 h2
    exact ih _ h1' h2'

/-- C6: in every reachable scheduler state each key has at most one pending
settle timeout and at most one pending remove timeout, and scheduling a new
timeout for a key first cancels any pending timeout for that key (in
particular one of the same kind): the prior timeout's id never appears in
the pending queue again, in any later reachable state, so firing it is
forever a no-op. -/
theorem c6_scheduler (evs : List SchedulerEvent) (k : String) (kind : TimeoutKind)
    (q : PendingTimeout) (hq : q ∈ (runScheduler evs).queue) (hk : q.key = k)
    (evs' : List SchedulerEvent) :
    ((runScheduler evs).queue.filter
        (fun p => p.key == k && p.kind == TimeoutKind.settle)).length ≤ 1 ∧
    ((runScheduler evs).queue.filter
        (fun p => p.key == k && p.kind == TimeoutKind.remove)).length ≤ 1 ∧
    q.id ∉ (runSchedulerFrom (scheduleTimeout k kind (runScheduler evs)) evs').queue.map
        (fun p => p.id) ∧
    hostFireTimeout q.id (runSchedulerFrom (scheduleTimeout k kind (runScheduler evs)) evs') =
      runSchedulerFrom (scheduleTimeout k kind (runScheduler evs)) evs' := by
  have hInv := schedulerInv_run evs
  obtain ⟨h1, h2, h3, h4, h5, h6⟩ := hInv
  set s := runScheduler evs with hs
  have hInv' : SchedulerInv s := ⟨h1, h2, h3, h4, h5, h6⟩
  have hqid_lt : q.id < s.counter := by
    have htr := h1 q hq
    exact (h5 _ (mapGet_mem _ _ _ htr)).2
  obtain ⟨hqn, hln, hcn⟩ := scheduleTimeout_normal k kind s hInv'
  have hnotin : q.id ∉ (scheduleTimeout k kind s).queue.map (fun p => p.id) := by
    rw [hqn]
    intro hmem
    rw [List.map_append, List.mem_append] at hmem
    rcases hmem with h | h
    · obtain ⟨p, hp, hpid⟩ := List.mem_map.mp h
      obtain ⟨hpq, hpf⟩ := List.mem_filter.mp hp
      have hkeys : p.key = q.key := mapGet_inj s.liveTimeouts h4 p.key q.key q.id
        (by rw [← hpid]; exact h1 p hpq) (h1 q hq)
      rw [hk] at hkeys
      rw [hkeys] at hpf
      simp at hpf
    · simp at h
      omega
  have hcnt' : q.id < (scheduleTimeout k kind s).counter := by
    rw [hcn]
    omega
  have hstale := stale_id_runFrom _ evs' q.id hnotin hcnt'
  refine ⟨?_, ?_, hstale, ?_⟩
  · calc (s.queue.filter (fun p => p.key == k && p.kind == TimeoutKind.settle)).length ≤
        (s.queue.filter (fun p => p.key == k)).length := length_filter_and_le _ _ _
    _ ≤ 1 := h2 k
  · calc (s.queue.filter (fun p => p.key == k && p.kind == TimeoutKind.remove)).length ≤
        (s.queue.filter (fun p => p.key == k)).length := length_filter_and_le _ _ _
    _ ≤ 1 := h2 k
  · unfold hostFireTimeout
    have hself : (runSchedulerFrom (scheduleTimeout k kind s) evs').queue.filter
        (fun p => !(p.id == q.id)) =
        (runSchedulerFrom (scheduleTimeout k kind s) evs').queue := by
      rw [List.filter_eq_self]
      intro p hp
      simp only [Bool.not_eq_true', beq_eq_false_iff_ne, ne_eq]
      intro hEq
      exact hstale (List.mem_map.mpr ⟨p, hp, hEq⟩)
    rw [hself]

/-- Witness for C6: after scheduling a remove timeout for key A (id 1) and
then scheduling a fresh remove timeout for A, the old id 1 is gone from the
queue and firing it changes nothing. -/
theorem c6_scheduler_witness :
    ((runScheduler [SchedulerEvent.schedule "A" TimeoutKind.remove]).queue.filter
        (fun p => p.key == "A" && p.kind == TimeoutKind.settle)).length ≤ 1 ∧
    ((runScheduler [SchedulerEvent.schedule "A" TimeoutKind.remove]).queue.filter
        (fun p => p.key == "A" && p.kind == TimeoutKind.remove)).length ≤ 1 ∧
    (PendingTimeout.mk 1 "A" TimeoutKind.remove).id ∉
      (runSchedulerFrom (scheduleTimeout "A" TimeoutKind.remove
          (runScheduler [SchedulerEvent.schedule "A" TimeoutKind.remove])) []).queue.map
        (fun p => p.id) ∧
    hostFireTimeout (PendingTimeout.mk 1 "A" TimeoutKind.remove).id
        (runSchedulerFrom (scheduleTimeout "A" TimeoutKind.remove
          (runScheduler [SchedulerEvent.schedule "A" TimeoutKind.remove])) []) =
      runSchedulerFrom (scheduleTimeout "A" TimeoutKind.remove
        (runScheduler [SchedulerEvent.schedule "A" TimeoutKind.remove])) [] :=
  c6_scheduler [SchedulerEvent.schedule "A" TimeoutKind.remove] "A" TimeoutKind.remove
    (PendingTimeout.mk 1 "A" TimeoutKind.remove) (by decide) rfl []

theorem mem_elementDiff_of_key (newChildren old : List Elem) (key : String)
    (hnew : key ∈ newChildren.map (fun e => e.key))
    (hold : key ∉ old.map (fun e => e.key)) :
    ∃ r ∈ elementDiff newChildren old, r.element.key = key := by
  obtain ⟨e, he, rfl⟩ := List.mem_map.mp hnew
  obtain ⟨i, hi⟩ := List.getElem?_of_mem he
  refine ⟨ElemWithIndex.mk e i, ?_, rfl⟩
  rw [elementDiff_eq_filter, List.mem_filter]
  exact ⟨mem_positioned_iff.mpr (by simpa using hi), not_contains_key_iff.mpr hold⟩

theorem mem_foldl_setAdd (l : List ElemWithIndex) (acc : List String) (k : String) :
    k ∈ l.foldl (fun ks r => setAdd ks r.element.key) acc ↔
      k ∈ acc ∨ k ∈ l.map (fun r => r.element.key) := by
  induction l generalizing acc with
  | nil => simp
  | cons r l ih =>
    rw [List.foldl_cons, ih]
    simp only [List.map_cons, List.mem_cons]
    unfold setAdd
    by_cases h : acc.contains r.element.key
    · rw [if_pos h]
      have hr := contains_true_iff.mp h
      constructor
      · rintro (h1 | h1)
        · exact Or.inl h1
        · exact Or.inr (Or.inr h1)
      · rintro (h1 | h1 | h1)
        · exact Or.inl h1
        · rw [h1]
          exact Or.inl hr
        · exact Or.inr h1
    · rw [if_neg h]
      constructor
      · rintro (h1 | h1)
        · rcases List.mem_append.mp h1 with h2 | h2
          · exact Or.inl h2
          · exact Or.inr (Or.inl (by simpa using h2))
        · exact Or.inr (Or.inr h1)
      · rintro (h1 | h1 | h1)
        · exact Or.inl (List.mem_append.mpr (Or.inl h1))
        · exact Or.inl (List.mem_append.mpr (Or.inr (by simpa using h1)))
        · exact Or.inr h1

theorem foldl_scheduleSettle_inv (l : List ElemWithIndex) (s : SchedulerState)
    (hInv : SchedulerInv s) :
    SchedulerInv (l.foldl (fun st r => scheduleSettleEnteringChild r.element.key st) s) := by
  induction l generalizing s with
  | nil => exact hInv
  | cons r l ih =>
    rw [List.foldl_cons]
    exact ih _ (schedulerInv_schedule _ _ _ hInv)

theorem foldl_scheduleRemove_inv (l : List ElemWithIndex) (s : SchedulerState)
    (hInv : SchedulerInv s) :
    SchedulerInv (l.foldl (fun st r => scheduleRemoveLeavingChild r.element.key st) s) := by
  induction l generalizing s with
  | nil => exact hInv
  | cons r l ih =>
    rw [List.foldl_cons]
    exact ih _ (schedulerInv_schedule _ _ _ hInv)

theorem scheduleTimeout_key_only (k : String) (s : SchedulerState) (hInv : SchedulerInv s)
    (q : PendingTimeout) (hq : q ∈ (scheduleTimeout k TimeoutKind.settle s).queue)
    (hk : q.key = k) : q.kind = TimeoutKind.settle := by
  obtain ⟨hqn, _, _⟩ := scheduleTimeout_normal k TimeoutKind.settle s hInv
  rw [hqn] at hq
  rcases List.mem_append.mp hq with h | h
  · exfalso
    have hf := (List.mem_filter.mp h).2
    rw [hk] at hf
    simp at hf
  · obtain rfl : q = PendingTimeout.mk s.counter k TimeoutKind.settle := by simpa using h
    rfl

theorem scheduleTimeout_preserves_key_only (k key : String) (kind : TimeoutKind)
    (s : SchedulerState)
    (hprev : ∀ q ∈ s.queue, q.key = key → q.kind = TimeoutKind.settle)
    (hnew : k = key → kind = TimeoutKind.settle) :
    ∀ q ∈ (scheduleTimeout k kind s).queue, q.key = key → q.kind = TimeoutKind.settle := by
  intro q hq hqk
  obtain ⟨hsub, hcnt⟩ := clearLiveTimeout_fields k s
  unfold scheduleTimeout at hq
  dsimp only at hq
  rcases List.mem_append.mp hq with h | h
  · exact hprev q (hsub.subset h) hqk
  · obtain rfl : q = PendingTimeout.mk (clearLiveTimeout k s).counter k kind := by simpa using h
    exact hnew hqk

theorem foldl_scheduleSettle_key_only (l : List ElemWithIndex) (key : String)
    (s : SchedulerState)
    (hprev : ∀ q ∈ s.queue, q.key = key → q.kind = TimeoutKind.settle) :
    ∀ q ∈ (l.foldl (fun st r => scheduleSettleEnteringChild r.element.key st) s).queue,
      q.key = key → q.kind = TimeoutKind.settle := by
  induction l generalizing s with
  | nil => exact hprev
  | cons r l ih =>
    rw [List.foldl_cons]
    exact ih _ (scheduleTimeout_preserves_key_only _ key _ s hprev (fun _ => rfl))

theorem applyUpdate_fields (s : EngineState) (newChildren : List Elem)
    (h : (elementDiff newChildren s.oldChildren).length ≠ 0) :
    (applyUpdate s newChildren).leavingChildren =
      reinstateLeavingChildren
        ((elementDiff newChildren s.oldChildren).map (fun r => r.element.key))
        (if (elementDiff s.oldChildren newChildren).length ≠ 0 then
            mergeInRemovedChildren (elementDiff s.oldChildren newChildren) s.leavingChildren
          else s.leavingChildren) ∧
    (applyUpdate s newChildren).sched =
      (elementDiff newChildren s.oldChildren).foldl
        (fun st r => scheduleSettleEnteringChild r.element.key st)
        (if (elementDiff s.oldChildren newChildren).length ≠ 0 then
            (elementDiff s.oldChildren newChildren).foldl
              (fun st r => scheduleRemoveLeavingChild r.element.key st) s.sched
          else s.sched) ∧
    (applyUpdate s newChildren).enteringChildren =
      (elementDiff newChildren s.oldChildren).foldl
        (fun ks r => setAdd ks r.element.key) s.enteringChildren ∧
    (applyUpdate s newChildren).inactiveChildren =
      (elementDiff newChildren s.oldChildren).foldl (fun ks r => setAdd ks r.element.key)
        (if (elementDiff s.oldChildren newChildren).length ≠ 0 then
            (elementDiff s.oldChildren newChildren).foldl
              (fun ks r => setAdd ks r.element.key) s.inactiveChildren
          else s.inactiveChildren) ∧
    (applyUpdate s newChildren).oldChildren = newChildren := by
  unfold applyUpdate
  by_cases hr : (elementDiff s.oldChildren newChildren).length ≠ 0
  · simp only [if_pos hr, if_pos h]
    exact ⟨trivial, trivial, trivial, trivial, trivial⟩
  · simp only [if_neg hr, if_pos h]
    exact ⟨trivial, trivial, trivial, trivial, trivial⟩

/-- C5: when a key that currently sits in the leaving registry reappears in
the input collection, the reconciliation pass removes it from the registry
entirely, cancels the pending remove timeout for that key (after the pass,
every pending timeout for the key is the freshly scheduled settle one),
renders every occurrence of the key with the plain enter tag -- never a
leave tag -- and a stale remove callback for the key is a no-op on the new
registry, so the key never reaches the removed state. -/
theorem c5_reinstate (n : String) (s : EngineState) (newChildren : List Elem)
    (c : ElemWithIndex)
    (hInv : SchedulerInv s.sched)
    (hc : c ∈ s.leavingChildren)
    (hnew : c.element.key ∈ newChildren.map (fun e => e.key))
    (hold : c.element.key ∉ s.oldChildren.map (fun e => e.key)) :
    (∀ e ∈ (applyUpdate s newChildren).leavingChildren, e.element.key ≠ c.element.key) ∧
    (∀ q ∈ (applyUpdate s newChildren).sched.queue,
        q.key = c.element.key → q.kind = TimeoutKind.settle) ∧
    (∀ x : RenderedChild,
        some x ∈ childrenToRender n (applyUpdate s newChildren).oldChildren
          (applyUpdate s newChildren).leavingChildren
          (applyUpdate s newChildren).enteringChildren
          (applyUpdate s newChildren).inactiveChildren →
        x.1.key = c.element.key → x.2 = n ++ "-enter") ∧
    removeLeavingChild c.element.key (applyUpdate s newChildren).leavingChildren =
      (applyUpdate s newChildren).leavingChildren := by
  obtain ⟨r, hr, hrk⟩ :=
    mem_elementDiff_of_key newChildren s.oldChildren c.element.key hnew hold
  have haddne : (elementDiff newChildren s.oldChildren).length ≠ 0 := by
    intro h0
    rw [List.length_eq_zero] at h0
    rw [h0] at hr
    cases hr
  obtain ⟨hleave, hsched, henter, hinact, holdc⟩ := applyUpdate_fields s newChildren haddne
  have hkeymem : c.element.key ∈
      (elementDiff newChildren s.oldChildren).map (fun r => r.element.key) :=
    List.mem_map.mpr ⟨r, hr, hrk⟩
  have conj1 : ∀ e ∈ (applyUpdate s newChildren).leavingChildren,
      e.element.key ≠ c.element.key := by
    intro e he hEq
    rw [hleave] at he
    unfold reinstateLeavingChildren at he
    have h2 := (List.mem_filter.mp he).2
    rw [hEq] at h2
    exact not_contains_key_iff.mp h2 hkeymem
  have conj2 : ∀ q ∈ (applyUpdate s newChildren).sched.queue,
      q.key = c.element.key → q.kind = TimeoutKind.settle := by
    rw [hsched]
    have hbaseInv : SchedulerInv
        (if (elementDiff s.oldChildren newChildren).length ≠ 0 then
            (elementDiff s.oldChildren newChildren).foldl
              (fun st r => scheduleRemoveLeavingChild r.element.key st) s.sched
          else s.sched) := by
      split
      · exact foldl_scheduleRemove_inv _ _ hInv
      · exact hInv
    obtain ⟨pre, post, hsplit⟩ := List.append_of_mem hr
    rw [hsplit, List.foldl_append, List.foldl_cons]
    apply foldl_scheduleSettle_key_only
    have hInvPre := foldl_scheduleSettle_inv pre _ hbaseInv
    intro q hq hqk
    exact scheduleTimeout_key_only r.element.key _ hInvPre q hq (by rw [hqk, hrk])
  have conj3 : ∀ x : RenderedChild,
      some x ∈ childrenToRender n (applyUpdate s newChildren).oldChildren
        (applyUpdate s newChildren).leavingChildren
        (applyUpdate s newChildren).enteringChildren
        (applyUpdate s newChildren).inactiveChildren →
      x.1.key = c.element.key → x.2 = n ++ "-enter" := by
    intro x hx hxk
    rcases childrenToRender_mem n _ _ _ _ x hx with ⟨lc, hlc, hxe⟩ | ⟨c', hc', hxe⟩
    · exfalso
      apply conj1 lc hlc
      rw [hxe] at hxk
      exact hxk
    · have hck : c'.key = c.element.key := by
        rw [hxe] at hxk
        exact hxk
      have hen : (applyUpdate s newChildren).enteringChildren.contains c'.key = true := by
        rw [henter]
        apply contains_true_iff.mpr
        rw [mem_foldl_setAdd]
        right
        rw [hck]
        exact hkeymem
      have hina : (applyUpdate s newChildren).inactiveChildren.contains c'.key = true := by
        rw [hinact]
        apply contains_true_iff.mpr
        rw [mem_foldl_setAdd]
        right
        rw [hck]
        exact hkeymem
      rw [hxe]
      have hen' := contains_true_iff.mp hen
      have hina' := contains_true_iff.mp hina
      simp [enterClassName, hen', hina']
  refine ⟨conj1, conj2, conj3, ?_⟩
  exact removeLeavingChild_no_match _ _ conj1

/-- Witness for C5: child B is leaving at merged index 1 with a pending
remove timeout; rendering children A, B again reinstates it. -/
theorem c5_reinstate_witness :
    (∀ e ∈ (applyUpdate engineBeforeReinstate [elemA, elemB]).leavingChildren,
        e.element.key ≠ (ElemWithIndex.mk elemB 1).element.key) ∧
    (∀ q ∈ (applyUpdate engineBeforeReinstate [elemA, elemB]).sched.queue,
        q.key = (ElemWithIndex.mk elemB 1).element.key → q.kind = TimeoutKind.settle) ∧
    (∀ x : RenderedChild,
        some x ∈ childrenToRender "t"
          (applyUpdate engineBeforeReinstate [elemA, elemB]).oldChildren
          (applyUpdate engineBeforeReinstate [elemA, elemB]).leavingChildren
          (applyUpdate engineBeforeReinstate [elemA, elemB]).enteringChildren
          (applyUpdate engineBeforeReinstate [elemA, elemB]).inactiveChildren →
        x.1.key = (ElemWithIndex.mk elemB 1).element.key → x.2 = "t" ++ "-enter") ∧
    removeLeavingChild (ElemWithIndex.mk elemB 1).element.key
        (applyUpdate engineBeforeReinstate [elemA, elemB]).leavingChildren =
      (applyUpdate engineBeforeReinstate [elemA, elemB]).leavingChildren :=
  c5_reinstate "t" engineBeforeReinstate [elemA, elemB] (ElemWithIndex.mk elemB 1)
    ⟨by decide, fun k => le_trans (List.length_filter_le _ _) (by decide),
      by decide, by decide, by decide, by decide⟩
    (by decide) (by decide) (by decide)

/-- C7: the effect commented "Clear all timeouts on unmount" runs its
clearing body once right after mount (where the stores are empty and it
clears nothing) and returns no cleanup function, so teardown runs nothing:
after removing child A, unmounting leaves the remove timeout for A pending,
and firing it still mutates the no-longer-observed engine state, contrary
to the teardown requirement. -/
theorem c7_teardown_misses_timeouts :
    clearAllTimeouts engineAtMount = engineAtMount ∧
    (unmountCleanup (applyUpdate engineAtMount [])).sched.queue =
      [PendingTimeout.mk 1 "A" TimeoutKind.remove] ∧
    fireEngineTimeout 1 (unmountCleanup (applyUpdate engineAtMount [])) ≠
      unmountCleanup (applyUpdate engineAtMount []) :=
  ⟨by decide, by decide, by decide⟩
